import Mathlib

/-!
Shallow embedding of `kerala_rag_demo.py` (class `SimpleRAGSystem`): the
chunking pipeline (markdown / FAQ / csv / plain), the hybrid lexical scorer,
the retriever and the answer assembler, together with proofs of the spec's
claims about them.

Conventions of the embedding:
* Python strings are Lean `String` / `List Char`; character classes
  (`\w`, `\s`, `[a-z0-9]`, `str.lower`) are modelled on their ASCII behaviour,
  which is the behaviour exercised by every construct the claims are about.
* Python floats are modelled as exact rationals `ℚ`.
* Python's process-seeded `hash` on strings is modelled as an arbitrary but
  fixed function `h : String → Int` (one value of the seed = one process).
* Regex operations (`re.split`, `re.findall`, `re.sub`) are compiled by hand
  into executable scanners implementing the leftmost / greedy / backtracking
  semantics of the patterns appearing in the source.
* Functions whose Python loop consumes a strictly shrinking suffix are given
  a fuel argument (initialised to the input length, which always suffices)
  so that every definition is structurally recursive and kernel-reducible.
-/

namespace KRag

/-! ## Characters and basic string helpers -/

def isSpaceC (c : Char) : Bool :=
  c = ' ' || c = '\t' || c = '\n' || c = '\r' || c = '\x0b' || c = '\x0c'

def isDigitC (c : Char) : Bool := decide (48 ≤ c.toNat ∧ c.toNat ≤ 57)

def isLowerAl (c : Char) : Bool := decide (97 ≤ c.toNat ∧ c.toNat ≤ 122)

def isUpperAl (c : Char) : Bool := decide (65 ≤ c.toNat ∧ c.toNat ≤ 90)

/-- `\w` of the source's tokenizing regex (ASCII): `[a-zA-Z0-9_]`. -/
def isWordChar (c : Char) : Bool :=
  isLowerAl c || isUpperAl c || isDigitC c || c = '_'

/-- Model of Python `str.lower()` (ASCII case mapping). -/
def lowerChar (c : Char) : Char :=
  if 65 ≤ c.toNat ∧ c.toNat ≤ 90 then Char.ofNat (c.toNat + 32) else c

def pyLower (l : List Char) : List Char := l.map lowerChar

/-- Python `str.strip(chars)` generalised over a character predicate. -/
def stripBy (p : Char → Bool) (l : List Char) : List Char :=
  ((l.dropWhile p).reverse.dropWhile p).reverse

/-- Python `str.strip()` (whitespace both ends). -/
def pyStrip (l : List Char) : List Char := stripBy isSpaceC l

/-- Python `str.strip('_')`. -/
def stripUnd (l : List Char) : List Char := stripBy (fun c => c = '_') l

/-- Python `s[:n]` on strings. -/
def pyTake (n : Nat) (s : String) : String := ⟨s.data.take n⟩

/-- Python `needle in hay` prefix test helper. -/
def leadsWith : List Char → List Char → Bool
  | [], _ => true
  | _ :: _, [] => false
  | a :: as, b :: bs => a = b && leadsWith as bs

/-- Python substring containment `needle in hay`. -/
def isSubstr : List Char → List Char → Bool
  | n, [] => leadsWith n []
  | n, c :: t => leadsWith n (c :: t) || isSubstr n t

/-- Python `' '.join` / `sep.join` with a single-space separator. -/
def joinSpace : List (List Char) → List Char
  | [] => []
  | [x] => x
  | x :: y :: t => x ++ ' ' :: joinSpace (y :: t)

/-! ## Decimal rendering: Python `str(int)` -/

def digitChar (n : Nat) : Char := Char.ofNat (48 + n)

def natStrGo : Nat → Nat → List Char → List Char
  | 0, _, acc => acc
  | fuel + 1, n, acc =>
    if n < 10 then digitChar n :: acc
    else natStrGo fuel (n / 10) (digitChar (n % 10) :: acc)

def natStrL (n : Nat) : List Char := natStrGo (n + 1) n []

def natStr (n : Nat) : String := ⟨natStrL n⟩

/-- Python `str(i)` for an `int`. -/
def intStr (i : Int) : String :=
  if i < 0 then "-" ++ natStr i.natAbs else natStr i.natAbs

/-! ## Metadata values (the `Dict[str, Any]` payload actually used) -/

inductive MVal where
  | s (v : String)
  | i (n : Int)
deriving DecidableEq

/-- Python `str(v)` on a metadata value. -/
def MVal.pyStr : MVal → String
  | .s v => v
  | .i n => intStr n

/-- Python dict update `{**m, k: v}` restricted to one key: replace in place
when the key is present (insertion order kept), else append. -/
def dictSet (m : List (String × MVal)) (k : String) (v : MVal) :
    List (String × MVal) :=
  if m.any (fun p => p.1 = k) then
    m.map (fun p => if p.1 = k then (k, v) else p)
  else m ++ [(k, v)]

/-! ## Data model -/

/-- The `Document` dataclass of the source (the retrievable chunk). -/
structure Doc where
  doc_id : String
  section_id : String
  content : String
  metadata : List (String × MVal)
deriving DecidableEq

structure CitationR where
  doc_id : String
  section_id : String
  snippet : String
deriving DecidableEq

structure AnswerR where
  answer : String
  citations : List CitationR
  confidence : String
deriving DecidableEq

/-- Content of an input document: a string (markdown / faq / plain) or a list
of csv rows.  A mistyped combination (e.g. `type: csv` with string content)
would raise in Python before producing chunks; it is modelled as empty. -/
inductive DContent where
  | text (s : String)
  | rows (rs : List (List (String × String)))
deriving DecidableEq

def DContent.asText : DContent → String
  | .text s => s
  | .rows _ => ""

def DContent.asRows : DContent → List (List (String × String))
  | .text _ => []
  | .rows rs => rs

/-- One entry of the list passed to `load_corpus`; `dtype` is the result of
`doc.get('type', 'text')` and `metadata` of `doc.get('metadata', {})`. -/
structure InputDoc where
  id : String
  dtype : String
  content : DContent
  metadata : List (String × MVal)
deriving DecidableEq

structure RAGState where
  documents : List Doc
  corpus_loaded : Bool
deriving DecidableEq

/-- `SimpleRAGSystem.__init__`. -/
def initState : RAGState := ⟨[], false⟩

/-! ## `_slugify` -/

/-- `re.sub(r'[^a-z0-9]+', '_', s)`: each maximal run of characters outside
`[a-z0-9]` becomes a single underscore.  The flag records whether the scanner
is inside such a run. -/
def squashGo : Bool → List Char → List Char
  | _, [] => []
  | inRun, c :: cs =>
    if isLowerAl c || isDigitC c then c :: squashGo false cs
    else if inRun then squashGo true cs
    else '_' :: squashGo true cs

/-- `re.sub(r'_{2,}', '_', s)`: collapse runs of two or more underscores. -/
def collapseUndGo : Bool → List Char → List Char
  | _, [] => []
  | prevU, c :: cs =>
    if c = '_' then
      (if prevU then collapseUndGo true cs else '_' :: collapseUndGo true cs)
    else c :: collapseUndGo false cs

def slugifyL (l : List Char) : List Char :=
  stripUnd (collapseUndGo false (squashGo false (pyLower l)))

/-- `SimpleRAGSystem._slugify`. -/
def slugify (s : String) : String := ⟨slugifyL s.data⟩

/-! ## `_tokenize` -/

def tokensGo : List Char → List Char → List (List Char)
  | cur, [] => if cur.isEmpty then [] else [cur.reverse]
  | cur, c :: cs =>
    if isWordChar c then tokensGo (c :: cur) cs
    else if cur.isEmpty then tokensGo [] cs
    else cur.reverse :: tokensGo [] cs

/-- `SimpleRAGSystem._tokenize`: `re.findall(r'\b\w+\b', text.lower())`,
i.e. the maximal runs of word characters of the lowercased text. -/
def tokenize (text : List Char) : List (List Char) := tokensGo [] (pyLower text)

/-! ## `_chunk_markdown` -/

/-- Match of the separator regex `\r?\n##\s+` at the current position:
returns the remainder after the greedy `\s+` when the pattern matches here. -/
def mdSepMatch : List Char → Option (List Char)
  | '\r' :: '\n' :: '#' :: '#' :: rest =>
    match rest with
    | c :: cs => if isSpaceC c then some ((c :: cs).dropWhile isSpaceC) else none
    | [] => none
  | '\n' :: '#' :: '#' :: rest =>
    match rest with
    | c :: cs => if isSpaceC c then some ((c :: cs).dropWhile isSpaceC) else none
    | [] => none
  | _ => none

def splitMdGo : Nat → List Char → List Char → List (List Char)
  | 0, acc, rest => [acc.reverse ++ rest]
  | _ + 1, acc, [] => [acc.reverse]
  | fuel + 1, acc, c :: cs =>
    match mdSepMatch (c :: cs) with
    | some rest => acc.reverse :: splitMdGo fuel [] rest
    | none => splitMdGo fuel (c :: acc) cs

/-- `re.split(r'\r?\n##\s+', content)`. -/
def splitMd (l : List Char) : List (List Char) := splitMdGo l.length [] l

/-- Python `section.split('\n', 1)`: the part before the first newline, and
the part after it when a newline exists. -/
def splitOnceNl : List Char → List Char × Option (List Char)
  | [] => ([], none)
  | c :: cs =>
    if c = '\n' then ([], some cs)
    else
      let r := splitOnceNl cs
      (c :: r.1, r.2)

def mdSectionId (i : Nat) (title : List Char) : String :=
  ⟨"section_".data ++ natStrL i ++ '_' :: slugifyL title⟩

/-- The `for i, section in enumerate(sections[1:], 1)` loop body. -/
def mdSections (doc_id : String) (metadata : List (String × MVal)) :
    Nat → List (List Char) → List Doc
  | _, [] => []
  | i, sec :: rest =>
    let sp := splitOnceNl sec
    let title := pyStrip sp.1
    let body := match sp.2 with
      | some l1 => pyStrip l1
      | none => []
    let full : List Char := "## ".data ++ title ++ '\n' :: '\n' :: body
    ⟨doc_id, mdSectionId i title, ⟨full⟩,
        dictSet metadata "section_title" (.s ⟨title⟩)⟩ ::
      mdSections doc_id metadata (i + 1) rest

/-- `SimpleRAGSystem._chunk_markdown`. -/
def chunk_markdown (doc_id : String) (content : String)
    (metadata : List (String × MVal)) : List Doc :=
  let sections := splitMd content.data
  let introChunks : List Doc :=
    match sections with
    | [] => []
    | s0 :: _ =>
      let intro := pyStrip s0
      if intro.isEmpty then [] else [⟨doc_id, "intro", ⟨intro⟩, metadata⟩]
  introChunks ++ mdSections doc_id metadata 1 (sections.drop 1)

/-! ## `_chunk_faq`

The pattern is `##\s*\d+\.\s*(.+?)\n\n(.*?)(?=\n##\s*\d+\.|\Z)` with `re.S`.
Forced sub-runs: after `##`, the greedy `\s*` and `\d+` are maximal runs
(whitespace and digits are disjoint character classes, and `\d+` is followed
by a literal dot).  The second `\s*` genuinely backtracks, since `.` with
`re.S` also matches whitespace.  The dotall `(.+?)` is the shortest non-empty
stretch ending right before a `"\n\n"`, and `(.*?)` with the lookahead is the
shortest stretch ending at `\n##\s*\d+\.` or at the end of input. -/

/-- Split at the first occurrence of `"\n\n"`: `(before, after)`. -/
def findDD : List Char → Option (List Char × List Char)
  | '\n' :: '\n' :: rest => some ([], rest)
  | c :: cs =>
    match findDD cs with
    | some p => some (c :: p.1, p.2)
    | none => none
  | [] => none

/-- `(.+?)\n\n`: shortest question of at least one character. -/
def qSplit : List Char → Option (List Char × List Char)
  | [] => none
  | x :: r => (findDD r).map (fun p => (x :: p.1, p.2))

/-- Backtracking of the greedy `\s*` before `(.+?)`: try the longest
whitespace prefix first, then shorter ones. -/
def faqPickW : Nat → List Char → Option (List Char × List Char)
  | 0, r => qSplit r
  | w + 1, r =>
    match qSplit (r.drop (w + 1)) with
    | some p => some p
    | none => faqPickW w r

/-- The lookahead alternative `\n##\s*\d+\.`. -/
def lookNum (l : List Char) : Bool :=
  match l with
  | '\n' :: '#' :: '#' :: r =>
    let r1 := r.dropWhile isSpaceC
    !(r1.takeWhile isDigitC).isEmpty &&
      (match r1.dropWhile isDigitC with
        | '.' :: _ => true
        | _ => false)
  | _ => false

/-- `(.*?)(?=\n##\s*\d+\.|\Z)`: shortest answer ending at the lookahead or at
the end of input (the lookahead is not consumed). -/
def answerSplit : List Char → List Char × List Char
  | [] => ([], [])
  | c :: cs =>
    if lookNum (c :: cs) then ([], c :: cs)
    else
      let r := answerSplit cs
      (c :: r.1, r.2)

/-- Whole-pattern match attempt at the current position: question, answer and
the unconsumed remainder. -/
def faqMatchAt (l : List Char) : Option (List Char × List Char × List Char) :=
  match l with
  | '#' :: '#' :: r0 =>
    let r1 := r0.dropWhile isSpaceC
    if (r1.takeWhile isDigitC).isEmpty then none
    else
      match r1.dropWhile isDigitC with
      | '.' :: r3 =>
        match faqPickW (r3.takeWhile isSpaceC).length r3 with
        | some p =>
          let ar := answerSplit p.2
          some (p.1, ar.1, ar.2)
        | none => none
      | _ => none
  | _ => none

/-- `pattern.findall(content)`: leftmost non-overlapping matches, resuming
after the (zero-width-lookahead) end of each match. -/
def faqScan : Nat → List Char → List (List Char × List Char)
  | 0, _ => []
  | _ + 1, [] => []
  | fuel + 1, c :: cs =>
    match faqMatchAt (c :: cs) with
    | some m => (m.1, m.2.1) :: faqScan fuel m.2.2
    | none => faqScan fuel cs

def faqMatches (content : String) : List (List Char × List Char) :=
  faqScan content.data.length content.data

def faqSectionId (i : Nat) (question : List Char) : String :=
  ⟨"faq_".data ++ natStrL i ++ '_' :: slugifyL question⟩

/-- The `for i, (question, answer) in enumerate(matches, 1)` loop body. -/
def faqChunks (doc_id : String) (metadata : List (String × MVal)) :
    Nat → List (List Char × List Char) → List Doc
  | _, [] => []
  | i, qa :: rest =>
    let full : List Char :=
      "Q: ".data ++ pyStrip qa.1 ++ '\n' :: '\n' :: 'A' :: ':' :: ' ' :: pyStrip qa.2
    ⟨doc_id, faqSectionId i qa.1, ⟨full⟩,
        dictSet (dictSet metadata "faq_number" (.i i)) "question"
          (.s ⟨pyStrip qa.1⟩)⟩ ::
      faqChunks doc_id metadata (i + 1) rest

/-- `SimpleRAGSystem._chunk_faq`. -/
def chunk_faq (doc_id : String) (content : String)
    (metadata : List (String × MVal)) : List Doc :=
  let ms := faqMatches content
  if ms.isEmpty then [⟨doc_id, "faq_all", content, metadata⟩]
  else faqChunks doc_id metadata 1 ms

/-! ## `_chunk_csv` -/

/-- Python `row.get(k, dflt)` on a csv row. -/
def rget (row : List (String × String)) (k dflt : String) : String :=
  match row.find? (fun p => p.1 = k) with
  | some p => p.2
  | none => dflt

/-- `SimpleRAGSystem._format_product_row`. -/
def format_product_row (row : List (String × String)) : String :=
  "Product: " ++ rget row "name" "Unknown" ++ "\n" ++
  "ID: " ++ rget row "product_id" "N/A" ++ "\n" ++
  "Category: " ++ rget row "category" "N/A" ++ "\n" ++
  "Format: " ++ rget row "format" "N/A" ++ "\n" ++
  "Target concerns: " ++ rget row "target_concerns" "N/A" ++ "\n" ++
  "Key herbs: " ++ rget row "key_herbs" "N/A" ++ "\n" ++
  "Contraindications: " ++ rget row "contraindications_short" "N/A" ++ "\n" ++
  "Tags: " ++ rget row "internal_tags" "N/A"

/-- `row.get('product_id') or str(hash(row.get('name', '')))`: a missing or
empty (falsy) `product_id` falls back to the hashed name. -/
def prodId (h : String → Int) (row : List (String × String)) : String :=
  let v := rget row "product_id" ""
  if v = "" then intStr (h (rget row "name" "")) else v

/-- `SimpleRAGSystem._chunk_csv`; `h` models the process's string `hash`. -/
def chunk_csv (h : String → Int) (doc_id : String)
    (rows : List (List (String × String))) (metadata : List (String × MVal)) :
    List Doc :=
  rows.map (fun row =>
    ⟨doc_id, "product_" ++ prodId h row, format_product_row row,
      row.foldl (fun m p => dictSet m p.1 (.s p.2)) metadata⟩)

/-! ## `load_corpus` -/

/-- The per-document dispatch of the `load_corpus` loop body. -/
def chunksFor (h : String → Int) (d : InputDoc) : List Doc :=
  if d.dtype = "markdown" then chunk_markdown d.id d.content.asText d.metadata
  else if d.dtype = "faq" then chunk_faq d.id d.content.asText d.metadata
  else if d.dtype = "csv" then chunk_csv h d.id d.content.asRows d.metadata
  else [⟨d.id, "main", d.content.asText, d.metadata⟩]

/-- `SimpleRAGSystem.load_corpus`: extends `self.documents` per document and
sets `corpus_loaded` (the `print` is I/O and not modelled). -/
def load_corpus (h : String → Int) (docs : List InputDoc) (st : RAGState) :
    RAGState :=
  ⟨docs.foldl (fun acc d => acc ++ chunksFor h d) st.documents, true⟩

/-! ## `_score_document` -/

def metadataBlob (m : List (String × MVal)) : List Char :=
  pyLower (joinSpace (m.map (fun p => p.2.pyStr.data)))

/-- `SimpleRAGSystem._score_document` over exact rationals. -/
def score_document (d : Doc) (query_terms : List (List Char))
    (query_raw : List Char) : ℚ :=
  let doc_text := pyLower d.content.data
  let doc_tokens := tokenize doc_text
  if doc_tokens.isEmpty then 0
  else
    let tfScore := query_terms.foldl
      (fun acc term =>
        let tf := doc_tokens.count term
        if 0 < tf then acc + ((tf : ℚ) / (doc_tokens.length : ℚ)) * 10 else acc)
      (0 : ℚ)
    let matching := (query_terms.filter (fun t => doc_tokens.contains t)).length
    let coverage : ℚ :=
      if query_terms.isEmpty then 0
      else (matching : ℚ) / (query_terms.length : ℚ)
    let s1 := tfScore + coverage * 5
    let s2 := if isSubstr query_raw doc_text then s1 + 15 else s1
    query_terms.foldl
      (fun acc term => if isSubstr term (metadataBlob d.metadata) then acc + 3 else acc)
      s2

/-! ## `retrieve` -/

/-- Descending-by-score order used by `scored_docs.sort(key=..., reverse=True)`. -/
def scoreOrder (a b : Doc × ℚ) : Prop := b.2 ≤ a.2

instance : DecidableRel scoreOrder := fun a b =>
  inferInstanceAs (Decidable (b.2 ≤ a.2))

instance : IsTotal (Doc × ℚ) scoreOrder := ⟨fun a b => le_total b.2 a.2⟩

instance : IsTrans (Doc × ℚ) scoreOrder := ⟨fun _ _ _ h1 h2 => le_trans h2 h1⟩

/-- `SimpleRAGSystem.retrieve` (`top_k` is a count, hence `Nat`).  Python's
stable `sort(reverse=True)` is realised by the stable `insertionSort`. -/
def retrieve (st : RAGState) (query : String) (top_k : Nat) :
    List (Doc × ℚ) :=
  if st.corpus_loaded then
    let query_terms := tokenize (pyLower query.data)
    let scored := st.documents.filterMap (fun d =>
      let s := score_document d query_terms (pyLower query.data)
      if 0 < s then some (d, s) else none)
    (scored.insertionSort scoreOrder).take top_k
  else []

/-! ## `answer_user_query` -/

def noRelevantText : String :=
  "No relevant information found in the Kerala Ayurveda corpus."

/-- `re.split(r'(?<=[.!?])\s+', l)`: split at each maximal whitespace run
preceded by a sentence-ending character.  The first argument is fuel, the
second the character preceding the current position (a space sentinel after a
consumed separator and at the start). -/
def sentSplitGo : Nat → Char → List Char → List Char → List (List Char)
  | 0, _, acc, rest => [acc.reverse ++ rest]
  | _ + 1, _, acc, [] => [acc.reverse]
  | fuel + 1, prev, acc, c :: cs =>
    if isSpaceC c && (prev = '.' || prev = '!' || prev = '?') then
      acc.reverse :: sentSplitGo fuel ' ' [] ((c :: cs).dropWhile isSpaceC)
    else sentSplitGo fuel c (c :: acc) cs

def sentSplit (l : List Char) : List (List Char) := sentSplitGo l.length ' ' [] l

/-- First sentence of the chunk longer than 40 characters after stripping. -/
def firstMeaningful (l : List Char) : Option (List Char) :=
  (((sentSplit (pyStrip l)).map pyStrip).filter (fun s => 40 < s.length)).head?

/-- `SimpleRAGSystem._generate_answer` (the unused `context` argument of the
source is omitted). -/
def generate_answer (retrieved : List (Doc × ℚ)) : String :=
  let parts := (retrieved.take 2).filterMap (fun p => firstMeaningful p.1.content.data)
  if parts.isEmpty then
    match retrieved with
    | [] => ""
    | p :: _ =>
      let topdoc := p.1.content
      pyTake 400 topdoc ++ (if 400 < topdoc.data.length then "..." else "")
  else ⟨joinSpace parts⟩

/-- `SimpleRAGSystem.answer_user_query`. -/
def answer_user_query (st : RAGState) (query : String) : AnswerR :=
  let retrieved := retrieve st query 4
  match retrieved with
  | [] => ⟨noRelevantText, [], "low"⟩
  | _ :: _ =>
    let citations := retrieved.map (fun p =>
      let snippet :=
        if p.1.content.data.length ≤ 1500 then p.1.content
        else pyTake 1500 p.1.content ++ "..."
      CitationR.mk p.1.doc_id p.1.section_id (pyTake 120 snippet))
    ⟨generate_answer retrieved, citations,
      if 2 ≤ retrieved.length then "high" else "medium"⟩

/-! ## Shared helper lemmas -/

theorem load_corpus_documents (h : String → Int) (docs : List InputDoc)
    (st : RAGState) :
    (load_corpus h docs st).documents =
      st.documents ++ docs.flatMap (chunksFor h) := by
  show docs.foldl (fun acc d => acc ++ chunksFor h d) st.documents = _
  induction docs generalizing st with
  | nil => simp
  | cons d rest ih =>
    simpa [List.flatMap_cons] using ih ⟨st.documents ++ chunksFor h d, true⟩

/-! ## C1: reloading -/

/-- C1 counterexample: `load_corpus` extends the chunk store instead of
replacing it.  Loading document `b` after an earlier load of document `a`
leaves the chunk of `a` in the store, so the store is not "exactly the chunks
derived from" the second document list. -/
theorem claim_C1_counterexample :
    (load_corpus (fun _ => 0) [⟨"b", "text", .text "y", []⟩]
        (load_corpus (fun _ => 0) [⟨"a", "text", .text "x", []⟩]
          initState)).documents
      = [⟨"a", "main", "x", []⟩, ⟨"b", "main", "y", []⟩] ∧
    (load_corpus (fun _ => 0) [⟨"b", "text", .text "y", []⟩]
        (load_corpus (fun _ => 0) [⟨"a", "text", .text "x", []⟩]
          initState)).documents
      ≠ [⟨"b", "main", "y", []⟩] := by
  constructor
  · rfl
  · decide

/-- C1 (amended): `load_corpus(D)` appends the chunks derived from `D` to the
existing store and sets the loaded flag; only when the system state is fresh
(empty store) does the store afterwards contain exactly the chunks derived
from `D`. -/
theorem claim_C1_amended (h : String → Int) (docs : List InputDoc)
    (st : RAGState) :
    (load_corpus h docs st).documents =
        st.documents ++ docs.flatMap (chunksFor h) ∧
    (load_corpus h docs st).corpus_loaded = true ∧
    (load_corpus h docs initState).documents = docs.flatMap (chunksFor h) := by
  refine ⟨load_corpus_documents h docs st, rfl, ?_⟩
  simpa [initState] using load_corpus_documents h docs initState

/-! ## C5: the no-results answer -/

/-- C5: whenever retrieval yields no results — in particular on any query
issued before a corpus was ever loaded — `answer_user_query` returns the
fixed "no relevant information" text, no citations and confidence "low"
(the embedding is total, so no error is possible). -/
theorem claim_C5_no_results (st : RAGState) (q : String) :
    (retrieve st q 4 = [] →
        answer_user_query st q = ⟨noRelevantText, [], "low"⟩) ∧
    (st.corpus_loaded = false →
        answer_user_query st q = ⟨noRelevantText, [], "low"⟩) := by
  have key : retrieve st q 4 = [] →
      answer_user_query st q = ⟨noRelevantText, [], "low"⟩ := by
    intro hr
    simp only [answer_user_query, hr]
  refine ⟨key, fun hl => key ?_⟩
  simp [retrieve, hl]

theorem claim_C5_witness :
    answer_user_query initState "What is Ayurveda" =
      ⟨noRelevantText, [], "low"⟩ :=
  (claim_C5_no_results initState "What is Ayurveda").2 rfl

/-! ## C6: determinism -/

/-- C6: for a fixed string-hash function (one Python process), a fixed input
document list and a fixed query, two independent runs of loading the
documents into a fresh system and answering the query produce identical
results. -/
theorem claim_C6_determinism (h : String → Int) (docs : List InputDoc)
    (q : String) (s1 s2 : RAGState)
    (h1 : s1 = load_corpus h docs initState)
    (h2 : s2 = load_corpus h docs initState) :
    answer_user_query s1 q = answer_user_query s2 q := by
  rw [h1, h2]

theorem claim_C6_witness :
    answer_user_query
        (load_corpus (fun _ => 0) [⟨"a", "text", .text "x", []⟩] initState)
        "x" =
      answer_user_query
        (load_corpus (fun _ => 0) [⟨"a", "text", .text "x", []⟩] initState)
        "x" :=
  claim_C6_determinism (fun _ => 0) [⟨"a", "text", .text "x", []⟩] "x" _ _
    rfl rfl

/-! ## C4: the retrieve contract -/

/-- C4: for every state, query and `K ≥ 0`, `retrieve` returns at most `K`
results, the results are ordered by score descending, and every returned
chunk has a strictly positive score. -/
theorem claim_C4_retrieve_contract (st : RAGState) (q : String) (K : Nat) :
    (retrieve st q K).length ≤ K ∧
    List.Pairwise scoreOrder (retrieve st q K) ∧
    List.Forall (fun p => (0 : ℚ) < p.2) (retrieve st q K) := by
  cases hcl : st.corpus_loaded with
  | false =>
    simp [retrieve, hcl]
  | true =>
    have hre : retrieve st q K =
        ((st.documents.filterMap (fun d =>
            let s := score_document d (tokenize (pyLower q.data))
              (pyLower q.data)
            if 0 < s then some (d, s) else none)).insertionSort
          scoreOrder).take K := by
      simp [retrieve, hcl]
    rw [hre]
    refine ⟨List.length_take_le K _, ?_, ?_⟩
    · exact (List.sorted_insertionSort scoreOrder _).sublist
        (List.take_sublist K _)
    · rw [List.forall_iff_forall_mem]
      intro p hp
      have hp2 : p ∈ List.insertionSort scoreOrder _ := List.mem_of_mem_take hp
      have hp3 := (List.mem_insertionSort scoreOrder).1 hp2
      rcases List.mem_filterMap.1 hp3 with ⟨d, _, hfd⟩
      by_cases hs : 0 < score_document d (tokenize (pyLower q.data))
          (pyLower q.data)
      · simp only [hs, if_pos] at hfd
        cases hfd
        exact hs
      · simp [hs] at hfd

/-! ## C2: the empty query -/

theorem isSubstr_nil (l : List Char) : isSubstr [] l = true := by
  cases l <;> simp [isSubstr, leadsWith]

/-- With no query terms, only the exact-phrase bonus can fire; the empty raw
query is a substring of every content, so every chunk with at least one
token scores exactly 15. -/
theorem score_document_nil_terms (d : Doc) :
    score_document d [] [] =
      if (tokenize (pyLower d.content.data)).isEmpty then 0 else 15 := by
  by_cases h : (tokenize (pyLower d.content.data)).isEmpty
  · simp [score_document, h]
  · simp [score_document, h, isSubstr_nil]

theorem filterMap_nil_terms (l : List Doc) :
    (l.filterMap (fun d =>
        if 0 < score_document d [] [] then some (d, score_document d [] [])
        else none)) =
      (l.filter (fun d => !(tokenize (pyLower d.content.data)).isEmpty)).map
        (fun d => (d, (15 : ℚ))) := by
  induction l with
  | nil => rfl
  | cons d rest ih =>
    by_cases h : (tokenize (pyLower d.content.data)).isEmpty
    · have hs : score_document d [] [] = 0 := by
        rw [score_document_nil_terms, if_pos h]
      simp [List.filterMap_cons, List.filter_cons, hs, h, ih]
    · have hs : score_document d [] [] = 15 := by
        rw [score_document_nil_terms, if_neg h]
      have hpos : (0 : ℚ) < 15 := by norm_num
      simp [List.filterMap_cons, List.filter_cons, hs, h, hpos, ih]

theorem insertionSort_const_score (l : List Doc) :
    (l.map (fun d => (d, (15 : ℚ)))).insertionSort scoreOrder =
      l.map (fun d => (d, (15 : ℚ))) := by
  induction l with
  | nil => rfl
  | cons d rest ih =>
    simp only [List.map_cons, List.insertionSort, ih]
    cases hrest : rest.map (fun d => (d, (15 : ℚ))) with
    | nil => rfl
    | cons y ys =>
      have hy : y.2 = 15 := by
        have hmem : y ∈ rest.map (fun d => (d, (15 : ℚ))) := by
          rw [hrest]; exact List.mem_cons_self y ys
        rcases List.mem_map.1 hmem with ⟨z, _, rfl⟩
        rfl
      simp [List.orderedInsert, scoreOrder, hy]

/-- Empty-string queries do not degrade to "no matches": every chunk with at
least one token gets the flat phrase bonus 15.0 and is returned. -/
theorem retrieve_empty_query (st : RAGState) (K : Nat)
    (h : st.corpus_loaded = true) :
    retrieve st "" K =
      ((st.documents.filter
          (fun d => !(tokenize (pyLower d.content.data)).isEmpty)).map
        (fun d => (d, (15 : ℚ)))).take K := by
  have hdata : ("" : String).data = [] := rfl
  simp only [retrieve, h, if_true, hdata]
  rw [show pyLower ([] : List Char) = [] from rfl,
    show tokenize ([] : List Char) = [] from rfl,
    filterMap_nil_terms, insertionSort_const_score]

/-- C2 counterexample: with a loaded one-chunk corpus, `retrieve("", 4)` is
not the empty sequence — the empty lowercased query string is a substring of
every content, so the exact-phrase bonus of 15.0 fires for every chunk with
at least one token. -/
theorem claim_C2_counterexample :
    retrieve (load_corpus (fun _ => 0)
        [⟨"w", "text", .text "stress relief", []⟩] initState) "" 4 =
      [(⟨"w", "main", "stress relief", []⟩, (15 : ℚ))] ∧
    retrieve (load_corpus (fun _ => 0)
        [⟨"w", "text", .text "stress relief", []⟩] initState) "" 4 ≠ [] := by
  have h := retrieve_empty_query
    (load_corpus (fun _ => 0) [⟨"w", "text", .text "stress relief", []⟩]
      initState) 4 rfl
  rw [h]
  exact ⟨by decide, by decide⟩

/-- C2 (amended): for every loaded corpus, `retrieve("", K)` returns the
first `min(K, n)` chunks having at least one content token, each scored
exactly 15.0 (the phrase bonus: the empty string is a substring of every
content, while the tf, coverage and metadata components are all zero).  It
is empty only when `K = 0` or no chunk has a token — not for every corpus as
the claim states. -/
theorem claim_C2_amended (st : RAGState) (K : Nat)
    (h : st.corpus_loaded = true) :
    retrieve st "" K =
      ((st.documents.filter
          (fun d => !(tokenize (pyLower d.content.data)).isEmpty)).map
        (fun d => (d, (15 : ℚ)))).take K :=
  retrieve_empty_query st K h

theorem claim_C2_witness :
    retrieve (load_corpus (fun _ => 0) [⟨"a", "text", .text "hello", []⟩]
        initState) "" 2 =
      (((load_corpus (fun _ => 0) [⟨"a", "text", .text "hello", []⟩]
            initState).documents.filter
          (fun d => !(tokenize (pyLower d.content.data)).isEmpty)).map
        (fun d => (d, (15 : ℚ)))).take 2 :=
  claim_C2_amended _ 2 rfl

/-! ## C7: the phrase bonus -/

theorem foldl_meta_shift (terms : List (List Char)) (blob : List Char)
    (x c : ℚ) :
    terms.foldl (fun acc term => if isSubstr term blob then acc + 3 else acc)
        (x + c) =
      terms.foldl (fun acc term => if isSubstr term blob then acc + 3 else acc)
        x + c := by
  induction terms generalizing x with
  | nil => rfl
  | cons t ts ih =>
    by_cases hsub : isSubstr t blob = true
    · simp only [List.foldl_cons, hsub, if_true]
      rw [show x + c + 3 = x + 3 + c by ring, ih]
    · simp only [List.foldl_cons, hsub, if_false]
      exact ih x

/-- C7: a chunk with at least one content token whose lowercased content
contains the raw lowercased query as a contiguous substring scores at least
15.0 higher than an otherwise-identical chunk (same token sequence, same
metadata) that does not contain it — the phrase match adds a flat 15.0 on
top of the other, equal, components. -/
theorem claim_C7_phrase_bonus (c1 c2 : Doc) (q : String)
    (htok : tokenize (pyLower c1.content.data) =
      tokenize (pyLower c2.content.data))
    (hne : (tokenize (pyLower c1.content.data)).isEmpty = false)
    (hmeta : c1.metadata = c2.metadata)
    (hin : isSubstr (pyLower q.data) (pyLower c1.content.data) = true)
    (hout : isSubstr (pyLower q.data) (pyLower c2.content.data) = false) :
    score_document c2 (tokenize (pyLower q.data)) (pyLower q.data) + 15 ≤
      score_document c1 (tokenize (pyLower q.data)) (pyLower q.data) := by
  have hne2 : (tokenize (pyLower c2.content.data)).isEmpty = false :=
    htok ▸ hne
  have key : score_document c1 (tokenize (pyLower q.data)) (pyLower q.data) =
      score_document c2 (tokenize (pyLower q.data)) (pyLower q.data) + 15 := by
    simp only [score_document, htok, hmeta, hin, hout, hne2,
      Bool.false_eq_true, if_false, if_true]
    exact foldl_meta_shift _ _ _ 15
  rw [key]

theorem claim_C7_witness :
    score_document ⟨"d", "s", "stress and. sleep help please kindly", []⟩
          (tokenize (pyLower "stress and sleep".data))
          (pyLower "stress and sleep".data) + 15 ≤
      score_document ⟨"d", "s", "stress and sleep help please kindly", []⟩
        (tokenize (pyLower "stress and sleep".data))
        (pyLower "stress and sleep".data) :=
  claim_C7_phrase_bonus
    ⟨"d", "s", "stress and sleep help please kindly", []⟩
    ⟨"d", "s", "stress and. sleep help please kindly", []⟩
    "stress and sleep" (by decide) (by decide) rfl (by decide) (by decide)

/-! ## C9: markdown scenario -/

/-- C9: a markdown document whose content splits into non-empty leading text
(after trimming) followed by exactly two second-level heading segments yields
exactly 3 chunks, in order: `intro`, `section_1_<slug>`, `section_2_<slug>`. -/
theorem claim_C9_markdown_three_chunks (doc_id : String) (content : String)
    (metadata : List (String × MVal)) (p s1 s2 : List Char)
    (hsplit : splitMd content.data = [p, s1, s2])
    (hintro : (pyStrip p).isEmpty = false) :
    ∃ a b : List Char,
      (chunk_markdown doc_id content metadata).map (fun c => c.section_id) =
        ["intro", ⟨"section_1_".data ++ a⟩, ⟨"section_2_".data ++ b⟩] := by
  refine ⟨slugifyL (pyStrip (splitOnceNl s1).1),
    slugifyL (pyStrip (splitOnceNl s2).1), ?_⟩
  simp only [chunk_markdown, hsplit, hintro, Bool.false_eq_true, if_false,
    List.drop_succ_cons, List.drop_zero, mdSections, mdSectionId,
    List.map_cons, List.map_nil, List.cons_append, List.nil_append]
  rfl

theorem claim_C9_witness :
    ((splitMd ("intro text\n## Alpha\nbody one\n## Beta Two\nbody two" :
          String).data =
        ["intro text".data, "Alpha\nbody one".data,
          "Beta Two\nbody two".data]) ∧
      ∃ a b : List Char,
        (chunk_markdown "d" "intro text\n## Alpha\nbody one\n## Beta Two\nbody two"
            []).map (fun c => c.section_id) =
          ["intro", ⟨"section_1_".data ++ a⟩, ⟨"section_2_".data ++ b⟩]) :=
  ⟨by decide,
    claim_C9_markdown_three_chunks "d"
      "intro text\n## Alpha\nbody one\n## Beta Two\nbody two" []
      "intro text".data "Alpha\nbody one".data "Beta Two\nbody two".data
      (by decide) (by decide)⟩

/-! ## C10: the FAQ blank-line condition -/

/-- Python `content.split('\n')`. -/
def splitLines : List Char → List (List Char)
  | [] => [[]]
  | c :: cs =>
    if c = '\n' then [] :: splitLines cs
    else
      match splitLines cs with
      | [] => [[c]]
      | x :: xs => (c :: x) :: xs

/-- A line of the shape `## <n>. ...` (the heading prefix of the FAQ
pattern). -/
def isNumHeadingLine (line : List Char) : Bool :=
  match line with
  | '#' :: '#' :: r =>
    let r1 := r.dropWhile isSpaceC
    !(r1.takeWhile isDigitC).isEmpty &&
      (match r1.dropWhile isDigitC with
        | '.' :: _ => true
        | _ => false)
  | _ => false

/-- Modelled from the spec words of C10: some numbered `## <n>. <question>`
heading line is immediately followed by a blank line. -/
def hasImmediateBlankHeading : List (List Char) → Bool
  | a :: b :: rest =>
    (isNumHeadingLine a && b.isEmpty) || hasImmediateBlankHeading (b :: rest)
  | _ => false

/-- C10 counterexample: in `"## 1. Q\nmore\n\nA"` no numbered heading line is
immediately followed by a blank line, yet the chunker (whose `re.S` pattern
lets the question capture span lines up to the first `"\n\n"`) recognizes a
Q/A block and does not fall back to a single `faq_all` chunk. -/
theorem claim_C10_counterexample :
    hasImmediateBlankHeading (splitLines ("## 1. Q\nmore\n\nA" :
        String).data) = false ∧
    (chunk_faq "f" "## 1. Q\nmore\n\nA" []).map (fun c => c.section_id) =
      ["faq_1_q_more"] ∧
    (chunk_faq "f" "## 1. Q\nmore\n\nA" []).map (fun c => c.section_id) ≠
      ["faq_all"] :=
  ⟨by decide, by decide, by decide⟩

/-- C10 (amended): the FAQ pattern recognizes a numbered Q/A block whenever a
`## <n>.` heading is followed — possibly only after further non-blank lines —
by a blank-line separator; it is only when the pattern finds no match at all
in the content that the chunker produces exactly one chunk with section id
`faq_all` and the entire raw document content. -/
theorem claim_C10_amended (doc_id : String) (content : String)
    (metadata : List (String × MVal)) (h : faqMatches content = []) :
    chunk_faq doc_id content metadata =
      [⟨doc_id, "faq_all", content, metadata⟩] := by
  simp [chunk_faq, h]

theorem claim_C10_witness :
    chunk_faq "f" "plain text with no headings" [] =
      [⟨"f", "faq_all", "plain text with no headings", []⟩] :=
  claim_C10_amended "f" "plain text with no headings" [] (by decide)

/-! ## C8: slug idempotence -/

/-- Alphabet of the slug replacement step `[^a-z0-9]`. -/
def isAl (c : Char) : Bool := isLowerAl c || isDigitC c

/-- Characters a slug can contain. -/
def slugChar (c : Char) : Bool := isAl c || c == '_'

/-- No two adjacent underscores. -/
def RU (a b : Char) : Prop := ¬(a = '_' ∧ b = '_')

theorem isAl_ne_underscore {c : Char} (h : isAl c = true) : c ≠ '_' := by
  intro hc
  subst hc
  simp [isAl, isLowerAl, isDigitC] at h

theorem lowerChar_slug {c : Char} (h : slugChar c = true) : lowerChar c = c := by
  simp only [slugChar, isAl, isLowerAl, isDigitC, Bool.or_eq_true,
    decide_eq_true_eq, beq_iff_eq] at h
  rcases h with (h | h) | h
  · simp only [lowerChar]
    rw [if_neg]
    omega
  · simp only [lowerChar]
    rw [if_neg]
    omega
  · subst h
    decide

theorem pyLower_slug {l : List Char} (h : ∀ c ∈ l, slugChar c = true) :
    pyLower l = l := by
  induction l with
  | nil => rfl
  | cons c cs ih =>
    have hc := lowerChar_slug (h c (List.mem_cons_self c cs))
    have hcs := ih (fun d hd => h d (List.mem_cons_of_mem c hd))
    simp only [pyLower, List.map_cons] at hcs ⊢
    rw [hc, hcs]

theorem squash_mem : ∀ (b : Bool) (l : List Char),
    ∀ c ∈ squashGo b l, slugChar c = true := by
  intro b l
  induction l generalizing b with
  | nil => intro c hc; simp [squashGo] at hc
  | cons d cs ih =>
    intro c hc
    by_cases hd : isLowerAl d || isDigitC d
    · rw [squashGo, if_pos hd] at hc
      rcases List.mem_cons.1 hc with rfl | hc
      · simp [slugChar, isAl, hd]
      · exact ih false c hc
    · rw [squashGo, if_neg hd] at hc
      cases b with
      | true => exact ih true c hc
      | false =>
        simp only [Bool.false_eq_true, if_false] at hc
        rcases List.mem_cons.1 hc with rfl | hc
        · rfl
        · exact ih true c hc

theorem squash_good : ∀ l : List Char,
    (squashGo false l).Chain' RU ∧ (squashGo true l).Chain' RU ∧
      (squashGo true l).head? ≠ some '_' := by
  intro l
  induction l with
  | nil => refine ⟨List.chain'_nil, List.chain'_nil, by simp [squashGo]⟩
  | cons c cs ih =>
    obtain ⟨ihF, ihA, ihH⟩ := ih
    by_cases hc : isLowerAl c || isDigitC c
    · have hcne : c ≠ '_' := isAl_ne_underscore (by simpa [isAl] using hc)
      have hch : (c :: squashGo false cs).Chain' RU := by
        rw [List.chain'_cons']
        exact ⟨fun y _ => fun hand => hcne hand.1, ihF⟩
      refine ⟨?_, ?_, ?_⟩
      · rw [squashGo, if_pos hc]; exact hch
      · rw [squashGo, if_pos hc]; exact hch
      · rw [squashGo, if_pos hc]
        simp only [List.head?_cons, ne_eq, Option.some_inj]
        exact hcne
    · refine ⟨?_, ?_, ?_⟩
      · rw [squashGo, if_neg hc]
        simp only [Bool.false_eq_true, if_false]
        rw [List.chain'_cons']
        refine ⟨fun y hy hand => ihH ?_, ihA⟩
        rw [Option.mem_def] at hy
        rw [hy, hand.2]
      · rw [squashGo, if_neg hc]
        simpa using ihA
      · rw [squashGo, if_neg hc]
        simpa using ihH

theorem collapse_id : ∀ l : List Char, l.Chain' RU →
    collapseUndGo false l = l ∧
      (l.head? ≠ some '_' → collapseUndGo true l = l) := by
  intro l
  induction l with
  | nil => exact fun _ => ⟨rfl, fun _ => rfl⟩
  | cons c cs ih =>
    intro hch
    obtain ⟨ihF, ihA⟩ := ih hch.tail
    by_cases hc : c = '_'
    · subst hc
      have hhead : cs.head? ≠ some '_' := by
        intro hs
        cases cs with
        | nil => simp at hs
        | cons d ds =>
          simp only [List.head?_cons, Option.some_inj] at hs
          exact (List.chain'_cons'.1 hch).1 d rfl ⟨rfl, hs⟩
      constructor
      · rw [collapseUndGo]
        simp only [if_pos rfl, Bool.false_eq_true, if_false]
        rw [ihA hhead]
        simp
      · intro habs
        simp at habs
    · constructor
      · rw [collapseUndGo, if_neg hc, ihF]
      · intro _
        rw [collapseUndGo, if_neg hc, ihF]

theorem squash_id : ∀ l : List Char, (∀ c ∈ l, slugChar c = true) →
    l.Chain' RU →
    squashGo false l = l ∧ (l.head? ≠ some '_' → squashGo true l = l) := by
  intro l
  induction l with
  | nil => exact fun _ _ => ⟨rfl, fun _ => rfl⟩
  | cons c cs ih =>
    intro hel hch
    obtain ⟨ihF, ihA⟩ :=
      ih (fun d hd => hel d (List.mem_cons_of_mem c hd)) hch.tail
    by_cases hc : isLowerAl c || isDigitC c
    · constructor
      · rw [squashGo, if_pos hc, ihF]
      · intro _
        rw [squashGo, if_pos hc, ihF]
    · have hcu : c = '_' := by
        have := hel c (List.mem_cons_self c cs)
        simp only [slugChar, isAl, Bool.or_eq_true, beq_iff_eq] at this
        rcases this with h | h
        · exact absurd (by simpa [isAl] using h) hc
        · exact h
      subst hcu
      have hhead : cs.head? ≠ some '_' := by
        intro hs
        cases cs with
        | nil => simp at hs
        | cons d ds =>
          simp only [List.head?_cons, Option.some_inj] at hs
          exact (List.chain'_cons'.1 hch).1 d rfl ⟨rfl, hs⟩
      constructor
      · rw [squashGo, if_neg hc]
        simp only [Bool.false_eq_true, if_false]
        rw [ihA hhead]
      · intro habs
        simp at habs

theorem strip_id {l : List Char} (h1 : l.head? ≠ some '_')
    (h2 : l.getLast? ≠ some '_') : stripUnd l = l := by
  have hdw : ∀ (m : List Char), m.head? ≠ some '_' →
      m.dropWhile (fun c => c = '_') = m := by
    intro m hm
    cases m with
    | nil => rfl
    | cons c cs =>
      simp only [List.head?_cons, ne_eq, Option.some_inj] at hm
      rw [List.dropWhile_cons, if_neg (by simpa using hm)]
  unfold stripUnd stripBy
  rw [hdw l h1]
  rw [hdw l.reverse (by rw [List.head?_reverse]; exact h2)]
  exact List.reverse_reverse l

theorem RU_chain_reverse {l : List Char} (h : l.Chain' RU) :
    l.reverse.Chain' RU := by
  rw [List.chain'_reverse]
  exact h.imp (fun a b hab => fun hand => hab ⟨hand.2, hand.1⟩)

theorem head_dropWhile_ne {m : List Char} :
    (m.dropWhile (fun c => c = '_')).head? ≠ some '_' := by
  intro habs
  have := List.head?_dropWhile_not (fun c : Char => c = '_') m
  rw [habs] at this
  simp at this

/-- Facts about the trailing-strip step
`u.strip-right = (u.reverse.dropWhile p).reverse`. -/
theorem stripTrail_facts (u : List Char) :
    (∀ c ∈ (u.reverse.dropWhile (fun c => c = '_')).reverse, c ∈ u) ∧
    (u.Chain' RU →
      ((u.reverse.dropWhile (fun c => c = '_')).reverse).Chain' RU) ∧
    ((u.reverse.dropWhile (fun c => c = '_')).reverse).getLast? ≠ some '_' ∧
    (u.head? ≠ some '_' →
      ((u.reverse.dropWhile (fun c => c = '_')).reverse).head? ≠ some '_') := by
  refine ⟨?_, ?_, ?_, ?_⟩
  · intro c hc
    have h1 : c ∈ u.reverse.dropWhile (fun c => c = '_') :=
      List.mem_reverse.1 hc
    exact List.mem_reverse.1 ((List.dropWhile_sublist _).subset h1)
  · intro h
    exact RU_chain_reverse
      ((RU_chain_reverse h).suffix (List.dropWhile_suffix _))
  · rw [List.getLast?_reverse]
    exact head_dropWhile_ne
  · intro hu habs
    rw [List.head?_reverse] at habs
    have hne : u.reverse.dropWhile (fun c => c = '_') ≠ [] := by
      intro h0
      rw [h0] at habs
      simp at habs
    obtain ⟨w, hw⟩ :=
      List.dropWhile_suffix (l := u.reverse) (fun c : Char => c = '_')
    have h2 : (u.reverse.dropWhile (fun c => c = '_')).getLast? =
        u.reverse.getLast? := by
      conv_rhs => rw [← hw]
      exact (List.getLast?_append_of_ne_nil w hne).symm
    rw [h2, List.getLast?_reverse] at habs
    exact hu habs

/-- The strip step preserves the slug alphabet and the no-adjacent-underscore
invariant, and removes the boundary underscores. -/
theorem strip_good {l : List Char} (hel : ∀ c ∈ l, slugChar c = true)
    (hch : l.Chain' RU) :
    (∀ c ∈ stripUnd l, slugChar c = true) ∧ (stripUnd l).Chain' RU ∧
      (stripUnd l).head? ≠ some '_' ∧ (stripUnd l).getLast? ≠ some '_' := by
  have hL1 : ∀ c ∈ l.dropWhile (fun c => c = '_'), slugChar c = true :=
    fun c hc => hel c ((List.dropWhile_sublist _).subset hc)
  have hL2 : (l.dropWhile (fun c => c = '_')).Chain' RU :=
    hch.suffix (List.dropWhile_suffix _)
  have hL3 : (l.dropWhile (fun c => c = '_')).head? ≠ some '_' :=
    head_dropWhile_ne
  obtain ⟨t1, t2, t3, t4⟩ := stripTrail_facts (l.dropWhile (fun c => c = '_'))
  exact ⟨fun c hc => hL1 c (t1 c hc), t2 hL2, t4 hL3, t3⟩

/-- Every output of the slugifier is over the slug alphabet, has no adjacent
underscores and no boundary underscore. -/
theorem slugifyL_good (l : List Char) :
    (∀ c ∈ slugifyL l, slugChar c = true) ∧ (slugifyL l).Chain' RU ∧
      (slugifyL l).head? ≠ some '_' ∧ (slugifyL l).getLast? ≠ some '_' := by
  unfold slugifyL
  have hq := squash_good (pyLower l)
  rw [(collapse_id _ hq.1).1]
  exact strip_good (squash_mem false (pyLower l)) hq.1

theorem slugifyL_id_of_good {l : List Char}
    (hel : ∀ c ∈ l, slugChar c = true) (hch : l.Chain' RU)
    (hh : l.head? ≠ some '_') (hl : l.getLast? ≠ some '_') :
    slugifyL l = l := by
  unfold slugifyL
  rw [pyLower_slug hel, (squash_id l hel hch).1, (collapse_id l hch).1]
  exact strip_id hh hl

/-- C8: `slugify` is idempotent — slugifying an already-slugified string
returns it unchanged, for every input string. -/
theorem claim_C8_slug_idempotent (s : String) :
    slugify (slugify s) = slugify s := by
  show (⟨slugifyL (slugifyL s.data)⟩ : String) = ⟨slugifyL s.data⟩
  obtain ⟨hel, hch, hh, hl⟩ := slugifyL_good s.data
  rw [slugifyL_id_of_good hel hch hh hl]

/-! ## C3 machinery: decimal renderings are injective digit strings -/

theorem digitChar_toNat {m : Nat} (h : m < 10) :
    (digitChar m).toNat = 48 + m := by
  interval_cases m <;> decide

theorem natStrGo_acc : ∀ (fuel n : Nat) (acc : List Char), n < fuel →
    natStrGo fuel n acc = natStrGo fuel n [] ++ acc := by
  intro fuel
  induction fuel with
  | zero => intro n acc h; omega
  | succ f ih =>
    intro n acc h
    by_cases h10 : n < 10
    · simp [natStrGo, h10]
    · have hdiv : n / 10 < f := by
        have h1 : n / 10 < n := Nat.div_lt_self (by omega) (by omega)
        omega
      simp only [natStrGo, h10, if_false]
      rw [ih (n / 10) (digitChar (n % 10) :: acc) hdiv,
        ih (n / 10) [digitChar (n % 10)] hdiv]
      simp

theorem natStrGo_fuel : ∀ (n f1 f2 : Nat), n < f1 → n < f2 →
    natStrGo f1 n [] = natStrGo f2 n [] := by
  intro n
  induction n using Nat.strong_induction_on with
  | _ n ih =>
    intro f1 f2 h1 h2
    cases f1 with
    | zero => omega
    | succ g1 =>
      cases f2 with
      | zero => omega
      | succ g2 =>
        by_cases h10 : n < 10
        · simp [natStrGo, h10]
        · have hlt : n / 10 < n := Nat.div_lt_self (by omega) (by omega)
          simp only [natStrGo, h10, if_false]
          rw [natStrGo_acc g1 (n / 10) _ (by omega),
            natStrGo_acc g2 (n / 10) _ (by omega),
            ih (n / 10) hlt g1 g2 (by omega) (by omega)]

theorem natStrL_ten {n : Nat} (h : 10 ≤ n) :
    natStrL n = natStrL (n / 10) ++ [digitChar (n % 10)] := by
  have hlt : n / 10 < n := Nat.div_lt_self (by omega) (by omega)
  show natStrGo (n + 1) n [] = _
  simp only [natStrGo, show ¬n < 10 by omega, if_false]
  rw [natStrGo_acc n (n / 10) _ (by omega)]
  unfold natStrL
  rw [natStrGo_fuel (n / 10) n (n / 10 + 1) (by omega) (by omega)]

/-- Decimal value of a digit string. -/
def valD (l : List Char) : Nat := l.foldl (fun a c => a * 10 + (c.toNat - 48)) 0

theorem valD_append_digit (xs : List Char) (c : Char) :
    valD (xs ++ [c]) = valD xs * 10 + (c.toNat - 48) := by
  unfold valD
  rw [List.foldl_append]
  rfl

theorem valD_natStrL (n : Nat) : valD (natStrL n) = n := by
  induction n using Nat.strong_induction_on with
  | _ n ih =>
    by_cases h10 : n < 10
    · show valD (natStrGo (n + 1) n []) = n
      simp only [natStrGo, h10, if_true]
      show 0 * 10 + ((digitChar n).toNat - 48) = n
      rw [digitChar_toNat h10]
      omega
    · rw [natStrL_ten (by omega), valD_append_digit,
        ih (n / 10) (Nat.div_lt_self (by omega) (by omega)),
        digitChar_toNat (Nat.mod_lt n (by omega))]
      omega

theorem natStrL_inj {m n : Nat} (h : natStrL m = natStrL n) : m = n := by
  have := valD_natStrL m
  rw [h, valD_natStrL] at this
  omega

theorem natStrL_digits (n : Nat) : ∀ c ∈ natStrL n, isDigitC c = true := by
  induction n using Nat.strong_induction_on with
  | _ n ih =>
    intro c hc
    by_cases h10 : n < 10
    · have : natStrL n = [digitChar n] := by
        show natStrGo (n + 1) n [] = _
        simp [natStrGo, h10]
      rw [this] at hc
      rcases List.mem_singleton.1 hc with rfl
      simp only [isDigitC, digitChar_toNat h10, decide_eq_true_eq]
      omega
    · rw [natStrL_ten (by omega)] at hc
      rcases List.mem_append.1 hc with hc | hc
      · exact ih (n / 10) (Nat.div_lt_self (by omega) (by omega)) c hc
      · rcases List.mem_singleton.1 hc with rfl
        have hm : n % 10 < 10 := Nat.mod_lt n (by omega)
        simp only [isDigitC, digitChar_toNat hm, decide_eq_true_eq]
        omega

theorem digits_und_split : ∀ (xs ys a b : List Char),
    (∀ c ∈ xs, isDigitC c = true) → (∀ c ∈ ys, isDigitC c = true) →
    xs ++ '_' :: a = ys ++ '_' :: b → xs = ys ∧ a = b := by
  intro xs
  induction xs with
  | nil =>
    intro ys a b _ hys h
    cases ys with
    | nil => simpa using h
    | cons y ys' =>
      exfalso
      simp only [List.nil_append, List.cons_append, List.cons.injEq] at h
      have hd := hys y (List.mem_cons_self y ys')
      rw [← h.1] at hd
      simp [isDigitC] at hd
  | cons x xs' ih =>
    intro ys a b hxs hys h
    cases ys with
    | nil =>
      exfalso
      simp only [List.cons_append, List.nil_append, List.cons.injEq] at h
      have hd := hxs x (List.mem_cons_self x xs')
      rw [h.1] at hd
      simp [isDigitC] at hd
    | cons y ys' =>
      simp only [List.cons_append, List.cons.injEq] at h
      obtain ⟨rfl, h2⟩ := h
      obtain ⟨h3, h4⟩ := ih ys' a b
        (fun c hc => hxs c (List.mem_cons_of_mem x hc))
        (fun c hc => hys c (List.mem_cons_of_mem x hc)) h2
      exact ⟨by rw [h3], h4⟩

/-! ## C3 machinery: section ids within one document -/

theorem mdSectionId_inj_idx {i j : Nat} {t u : List Char}
    (h : mdSectionId i t = mdSectionId j u) : i = j := by
  have hd : "section_".data ++ (natStrL i ++ '_' :: slugifyL t) =
      "section_".data ++ (natStrL j ++ '_' :: slugifyL u) :=
    congrArg String.data h
  have hd2 := List.append_cancel_left hd
  exact natStrL_inj
    (digits_und_split _ _ _ _ (natStrL_digits i) (natStrL_digits j) hd2).1

theorem faqSectionId_inj_idx {i j : Nat} {t u : List Char}
    (h : faqSectionId i t = faqSectionId j u) : i = j := by
  have hd : "faq_".data ++ (natStrL i ++ '_' :: slugifyL t) =
      "faq_".data ++ (natStrL j ++ '_' :: slugifyL u) :=
    congrArg String.data h
  have hd2 := List.append_cancel_left hd
  exact natStrL_inj
    (digits_und_split _ _ _ _ (natStrL_digits i) (natStrL_digits j) hd2).1

theorem intro_ne_mdSectionId (j : Nat) (t : List Char) :
    ("intro" : String) ≠ mdSectionId j t := by
  intro h
  have hd : ('i' : Char) :: 'n' :: 't' :: 'r' :: 'o' :: [] =
      's' :: 'e' :: 'c' :: 't' :: 'i' :: 'o' :: 'n' :: '_' ::
        (natStrL j ++ '_' :: slugifyL t) :=
    congrArg String.data h
  simp at hd

theorem mdSections_shape (did : String) (md : List (String × MVal)) :
    ∀ (i : Nat) (secs : List (List Char)) (c : Doc),
      c ∈ mdSections did md i secs →
      c.doc_id = did ∧ ∃ j t, i ≤ j ∧ c.section_id = mdSectionId j t := by
  intro i secs
  induction secs generalizing i with
  | nil =>
    intro c hc
    simp [mdSections] at hc
  | cons s rest ih =>
    intro c hc
    simp only [mdSections] at hc
    rcases List.mem_cons.1 hc with rfl | hc
    · exact ⟨rfl, i, _, le_refl i, rfl⟩
    · obtain ⟨h1, j, t, hj, hs⟩ := ih (i + 1) c hc
      exact ⟨h1, j, t, by omega, hs⟩

theorem mdSections_sid_nodup (did : String) (md : List (String × MVal)) :
    ∀ (i : Nat) (secs : List (List Char)),
      ((mdSections did md i secs).map (fun c => c.section_id)).Nodup := by
  intro i secs
  induction secs generalizing i with
  | nil => simp [mdSections]
  | cons s rest ih =>
    simp only [mdSections, List.map_cons]
    rw [List.nodup_cons]
    refine ⟨?_, ih (i + 1)⟩
    intro hmem
    rcases List.mem_map.1 hmem with ⟨c, hc, hcs⟩
    obtain ⟨_, j, t, hj, hsid⟩ := mdSections_shape did md (i + 1) rest c hc
    rw [hsid] at hcs
    have := mdSectionId_inj_idx hcs
    omega

theorem chunk_markdown_facts (did : String) (content : String)
    (md : List (String × MVal)) :
    (∀ c ∈ chunk_markdown did content md, c.doc_id = did) ∧
    ((chunk_markdown did content md).map (fun c => c.section_id)).Nodup := by
  unfold chunk_markdown
  generalize splitMd content.data = secs
  have hdocall : ∀ c ∈ mdSections did md 1 (secs.drop 1), c.doc_id = did :=
    fun c hc => (mdSections_shape did md 1 _ c hc).1
  have hnd : ((mdSections did md 1 (secs.drop 1)).map
      (fun c => c.section_id)).Nodup := mdSections_sid_nodup did md 1 _
  cases secs with
  | nil =>
    exact ⟨fun c hc => hdocall c (by simpa using hc), by simpa using hnd⟩
  | cons s0 srest =>
    rw [List.drop_succ_cons, List.drop_zero] at hdocall hnd
    by_cases hint : (pyStrip s0).isEmpty
    · simp only [hint, if_true, List.nil_append]
      exact ⟨hdocall, hnd⟩
    · simp only [hint, Bool.false_eq_true, if_false, List.cons_append,
        List.nil_append, List.map_cons]
      refine ⟨?_, ?_⟩
      · intro c hc
        rcases List.mem_cons.1 hc with rfl | hc
        · rfl
        · exact hdocall c hc
      · rw [List.nodup_cons]
        refine ⟨?_, hnd⟩
        intro hmem
        rcases List.mem_map.1 hmem with ⟨c, hc, hcs⟩
        obtain ⟨_, j, t, _, hsid⟩ := mdSections_shape did md 1 srest c hc
        rw [hsid] at hcs
        exact intro_ne_mdSectionId j t hcs.symm

theorem faqChunks_shape (did : String) (md : List (String × MVal)) :
    ∀ (i : Nat) (qas : List (List Char × List Char)) (c : Doc),
      c ∈ faqChunks did md i qas →
      c.doc_id = did ∧ ∃ j t, i ≤ j ∧ c.section_id = faqSectionId j t := by
  intro i qas
  induction qas generalizing i with
  | nil =>
    intro c hc
    simp [faqChunks] at hc
  | cons qa rest ih =>
    intro c hc
    simp only [faqChunks] at hc
    rcases List.mem_cons.1 hc with rfl | hc
    · exact ⟨rfl, i, _, le_refl i, rfl⟩
    · obtain ⟨h1, j, t, hj, hs⟩ := ih (i + 1) c hc
      exact ⟨h1, j, t, by omega, hs⟩

theorem faqChunks_sid_nodup (did : String) (md : List (String × MVal)) :
    ∀ (i : Nat) (qas : List (List Char × List Char)),
      ((faqChunks did md i qas).map (fun c => c.section_id)).Nodup := by
  intro i qas
  induction qas generalizing i with
  | nil => simp [faqChunks]
  | cons qa rest ih =>
    simp only [faqChunks, List.map_cons]
    rw [List.nodup_cons]
    refine ⟨?_, ih (i + 1)⟩
    intro hmem
    rcases List.mem_map.1 hmem with ⟨c, hc, hcs⟩
    obtain ⟨_, j, t, hj, hsid⟩ := faqChunks_shape did md (i + 1) rest c hc
    rw [hsid] at hcs
    have := faqSectionId_inj_idx hcs
    omega

theorem chunk_faq_facts (did : String) (content : String)
    (md : List (String × MVal)) :
    (∀ c ∈ chunk_faq did content md, c.doc_id = did) ∧
    ((chunk_faq did content md).map (fun c => c.section_id)).Nodup := by
  unfold chunk_faq
  by_cases hm : (faqMatches content).isEmpty
  · simp only [hm, if_true]
    constructor
    · intro c hc
      rcases List.mem_singleton.1 hc with rfl
      rfl
    · simp
  · simp only [hm, Bool.false_eq_true, if_false]
    exact ⟨fun c hc => (faqChunks_shape did md 1 _ c hc).1,
      faqChunks_sid_nodup did md 1 _⟩

theorem chunk_csv_facts (h : String → Int) (did : String)
    (rows : List (List (String × String))) (md : List (String × MVal))
    (hrows : (rows.map (prodId h)).Nodup) :
    (∀ c ∈ chunk_csv h did rows md, c.doc_id = did) ∧
    ((chunk_csv h did rows md).map (fun c => c.section_id)).Nodup := by
  constructor
  · intro c hc
    rcases List.mem_map.1 hc with ⟨r, _, rfl⟩
    rfl
  · unfold chunk_csv
    rw [List.map_map]
    have heq : ((fun c : Doc => c.section_id) ∘ (fun row =>
        (⟨did, "product_" ++ prodId h row, format_product_row row,
          row.foldl (fun m p => dictSet m p.1 (.s p.2)) md⟩ : Doc))) =
        (fun s => "product_" ++ s) ∘ prodId h := rfl
    rw [heq, ← List.map_map]
    refine hrows.map ?_
    intro x y hxy
    have hd := congrArg String.data hxy
    rw [String.data_append, String.data_append] at hd
    exact String.ext (List.append_cancel_left hd)

theorem chunksFor_doc_id (h : String → Int) (d : InputDoc) :
    ∀ c ∈ chunksFor h d, c.doc_id = d.id := by
  intro c hc
  unfold chunksFor at hc
  by_cases h1 : d.dtype = "markdown"
  · rw [if_pos h1] at hc
    exact (chunk_markdown_facts d.id _ d.metadata).1 c hc
  · rw [if_neg h1] at hc
    by_cases h2 : d.dtype = "faq"
    · rw [if_pos h2] at hc
      exact (chunk_faq_facts d.id _ d.metadata).1 c hc
    · rw [if_neg h2] at hc
      by_cases h3 : d.dtype = "csv"
      · rw [if_pos h3] at hc
        rcases List.mem_map.1 hc with ⟨r, _, rfl⟩
        rfl
      · rw [if_neg h3] at hc
        rcases List.mem_singleton.1 hc with rfl
        rfl

theorem chunksFor_sid_nodup (h : String → Int) (d : InputDoc)
    (hcsv : d.dtype = "csv" →
      ((d.content.asRows).map (prodId h)).Nodup) :
    ((chunksFor h d).map (fun c => c.section_id)).Nodup := by
  unfold chunksFor
  by_cases h1 : d.dtype = "markdown"
  · rw [if_pos h1]
    exact (chunk_markdown_facts d.id _ d.metadata).2
  · rw [if_neg h1]
    by_cases h2 : d.dtype = "faq"
    · rw [if_pos h2]
      exact (chunk_faq_facts d.id _ d.metadata).2
    · rw [if_neg h2]
      by_cases h3 : d.dtype = "csv"
      · rw [if_pos h3]
        exact (chunk_csv_facts h d.id _ d.metadata (hcsv h3)).2
      · rw [if_neg h3]
        simp

theorem nodup_key_of_nodup_sid : ∀ l : List Doc,
    ((l.map (fun c => c.section_id)).Nodup) →
    ((l.map (fun c => (c.doc_id, c.section_id))).Nodup) := by
  intro l
  induction l with
  | nil => simp
  | cons c cs ih =>
    simp only [List.map_cons, List.nodup_cons]
    rintro ⟨hnot, hrest⟩
    refine ⟨?_, ih hrest⟩
    intro hmem
    rcases List.mem_map.1 hmem with ⟨c', hc', hkey⟩
    exact hnot (List.mem_map.2 ⟨c', hc', congrArg Prod.snd hkey⟩)

theorem keys_nodup_flatMap (h : String → Int) : ∀ (docs : List InputDoc),
    (docs.map (fun d => d.id)).Nodup →
    (∀ d ∈ docs, d.dtype = "csv" →
      ((d.content.asRows).map (prodId h)).Nodup) →
    ((docs.flatMap (chunksFor h)).map
      (fun c => (c.doc_id, c.section_id))).Nodup := by
  intro docs
  induction docs with
  | nil => simp
  | cons d rest ih =>
    intro hids hcsv
    rw [List.flatMap_cons, List.map_append, List.nodup_append]
    rw [List.map_cons, List.nodup_cons] at hids
    refine ⟨?_, ih hids.2
      (fun d' hd' => hcsv d' (List.mem_cons_of_mem d hd')), ?_⟩
    · exact nodup_key_of_nodup_sid _
        (chunksFor_sid_nodup h d (hcsv d (List.mem_cons_self d rest)))
    · intro k hk1 hk2
      rcases List.mem_map.1 hk1 with ⟨c, hc, rfl⟩
      rcases List.mem_map.1 hk2 with ⟨c', hc', hkeq⟩
      rcases List.mem_flatMap.1 hc' with ⟨d', hd', hcd'⟩
      have h1 : c.doc_id = d.id := chunksFor_doc_id h d c hc
      have h2 : c'.doc_id = d'.id := chunksFor_doc_id h d' c' hcd'
      apply hids.1
      have hfst : d.id = d'.id := by
        have := congrArg Prod.fst hkeq
        simp only at this
        rw [h1] at this
        rw [h2] at this
        exact this.symm
      rw [hfst]
      exact List.mem_map.2 ⟨d', hd', rfl⟩

/-! ## C3: chunk key uniqueness -/

/-- C3 counterexample: `load_corpus` accepts a document list in which two
documents share the id `"d"`; both produce a chunk keyed `("d", "main")`, so
the resulting corpus has two chunks with the same `(doc_id, section_id)`
pair. -/
theorem claim_C3_counterexample :
    ((load_corpus (fun _ => 0)
        [⟨"d", "text", .text "hello", []⟩, ⟨"d", "text", .text "world", []⟩]
        initState).documents.map (fun c => (c.doc_id, c.section_id))) =
      [("d", "main"), ("d", "main")] ∧
    ¬ ((load_corpus (fun _ => 0)
        [⟨"d", "text", .text "hello", []⟩, ⟨"d", "text", .text "world", []⟩]
        initState).documents.map
          (fun c => (c.doc_id, c.section_id))).Nodup :=
  ⟨by decide, by decide⟩

/-- C3 (amended): if the loaded documents have pairwise distinct ids, and
within each csv document the derived product identifiers (the `product_id`
field, or the hashed name when it is missing or empty) are pairwise
distinct, then no two chunks of the corpus loaded into a fresh system share
the same `(doc_id, section_id)` pair. -/
theorem claim_C3_amended (h : String → Int) (docs : List InputDoc)
    (hids : (docs.map (fun d => d.id)).Nodup)
    (hcsv : ∀ d ∈ docs, d.dtype = "csv" →
      ((d.content.asRows).map (prodId h)).Nodup) :
    (((load_corpus h docs initState).documents).map
      (fun c => (c.doc_id, c.section_id))).Nodup := by
  rw [load_corpus_documents]
  show ((([] : List Doc) ++ docs.flatMap (chunksFor h)).map
    (fun c => (c.doc_id, c.section_id))).Nodup
  rw [List.nil_append]
  exact keys_nodup_flatMap h docs hids hcsv

theorem claim_C3_witness :
    (((load_corpus (fun _ => 0)
        [⟨"m", "markdown", .text "lead\n## A\nx\n## B\ny", []⟩,
          ⟨"f", "faq", .text "## 1. Q?\n\nAns", []⟩,
          ⟨"c", "csv", .rows [[("product_id", "P1"), ("name", "N1")],
            [("product_id", "P2"), ("name", "N2")]], []⟩,
          ⟨"p", "text", .text "plain", []⟩]
        initState).documents).map
      (fun c => (c.doc_id, c.section_id))).Nodup :=
  claim_C3_amended (fun _ => 0)
    [⟨"m", "markdown", .text "lead\n## A\nx\n## B\ny", []⟩,
      ⟨"f", "faq", .text "## 1. Q?\n\nAns", []⟩,
      ⟨"c", "csv", .rows [[("product_id", "P1"), ("name", "N1")],
        [("product_id", "P2"), ("name", "N2")]], []⟩,
      ⟨"p", "text", .text "plain", []⟩]
    (by decide) (by decide)

end KRag
